import Mathlib

/-!
Verification of the webtail repository (src/main.go) against its
natural-language specification.

The development shallowly embeds the two core components of main.go:

- tailFile (main.go:216-260): a polling tail loop that reads newly appended
  bytes of a file at a tracked offset into a fixed 16384-byte buffer,
  reassembles newline-delimited lines (carrying a partial trailing fragment
  across reads), emits whole lines on a channel, backs off with random
  jitter when no data is available, and on exit closes the file handle and
  the channel in a deferred cleanup.

- the /tail HTTP handler (main.go:132-210): path validation against the
  configured root (path.Clean, fs.ValidPath via os.DirFS Stat, IsRegular,
  filepath.Join/Abs, strings.HasPrefix), then a select loop that formats
  each received line as an SSE frame (data: <wrapped line> plus a blank
  line, HTML-escaping the line when a wrap string is given) into a buffered
  writer, flushing on a 2-second ticker when non-empty and once more when
  the line channel closes.

Bytes are modelled as natural numbers, byte strings as lists of naturals.
External nondeterminism (what ReadAt returns, when the context is
cancelled, the random jitter, ticker versus channel races) is supplied by
explicit oracle inputs, so the loops become deterministic step functions
over those inputs.
-/

/-- Nanoseconds in one second: the value of time.Second, the backoff
baseline of tailFile (main.go:225). -/
def second : Nat := 1000000000

/-- Size of the fixed working buffer a of tailFile (main.go:223). -/
def bufSize : Nat := 16384

/-- Byte value of a newline, the line separator searched by
bytes.IndexByte(p, 10) in tailFile (main.go:244). -/
def nl : Nat := 10

/-- Result of the inner scan loop of tailFile (main.go:243-255): the
complete lines sent on the channel, the trailing bytes after the last
newline (the new carried partial line, copied back to the front of the
buffer), and whether the loop was aborted by ctx.Done while sending. -/
structure ScanOut where
  lines : List (List Nat)
  carry : List Nat
  cancelled : Bool
deriving DecidableEq, Repr

/-- Embedding of the inner scan loop of tailFile (main.go:243-255).
The combined buffer p is scanned for newlines: the bytes before each
newline are emitted as one line (each send is a select against ctx.Done),
and with no newline left the remainder becomes the carried partial line.
The budget argument is the cancellation oracle: some k means ctx.Done
fires just before the send of line number k+1, none means the context
stays live for this scan.  The recursion consumes the byte list one
character at a time, which performs exactly the repeated
bytes.IndexByte / take-before / drop-after walk of the source; the
recurrence of the source loop is certified by the theorems
scanEmit_no_newline, scanEmit_at_newline and scanEmit_budget_zero below. -/
def scanEmit : Option Nat → List Nat → ScanOut
  | _, [] => ⟨[], [], false⟩
  | b, c :: cs =>
    if c = nl then
      match b with
      | some 0 => ⟨[], c :: cs, true⟩
      | some (k + 1) =>
        let r := scanEmit (some k) cs
        ⟨[] :: r.lines, r.carry, r.cancelled⟩
      | none =>
        let r := scanEmit none cs
        ⟨[] :: r.lines, r.carry, r.cancelled⟩
    else
      let r := scanEmit b cs
      match r.lines with
      | [] => ⟨[], c :: cs, r.cancelled⟩
      | l :: ls => ⟨(c :: l) :: ls, r.carry, r.cancelled⟩

/-- Scan with a live context: the newline-delimited records of a byte
sequence and its trailing partial record.  This is both what one
uncancelled pass of the tailFile inner loop produces and the reference
notion of the records of a file. -/
def scanLines (p : List Nat) : ScanOut := scanEmit none p

/-- Position of the first newline, as computed by bytes.IndexByte in
tailFile (main.go:244). -/
def idxOfNL : List Nat → Option Nat
  | [] => none
  | c :: cs => if c = nl then some 0 else (idxOfNL cs).map (· + 1)

/-- Classification of the error value returned by fh.ReadAt: io.EOF
(reading past the current end of the file) versus any other error.
tailFile treats only non-EOF errors as fatal (main.go:256-258). -/
inductive RErr
  | eof
  | other
deriving DecidableEq, Repr

/-- Oracle inputs of one iteration of the tailFile read loop: the bytes
the file offers at the current offset (ReadAt copies at most the free
buffer space of them), the error ReadAt reports, the value of the random
backoff jitter rand.Float32 scaled to nanoseconds (main.go:231), whether
ctx.Done fires during the backoff select (main.go:233-237), and whether
ctx.Done fires while sending a line (some k: before the send of line
number k+1; none: not during this iteration, main.go:248-253). -/
structure IterIn where
  bytes : List Nat
  rerr : Option RErr
  jitter : Nat
  cancelWait : Bool
  cancelEmit : Option Nat
deriving DecidableEq, Repr

/-- State of tailFile between loop iterations: the read offset off, the
carried partial line a[0:start], and the current backoff duration dur in
nanoseconds (main.go:222-225). -/
structure TState where
  off : Nat
  buf : List Nat
  dur : Nat
deriving DecidableEq, Repr

/-- Observable events of a tail: a line sent on the channel, a completed
backoff wait of the given duration, an invocation of fh.Close, a close of
the lines channel, and a flush of the buffered writer to the network sink
(the last one is produced by the /tail delivery loop, which closes the
same file handle via its own defer, main.go:162). -/
inductive Ev
  | emit (line : List Nat)
  | waitBackoff (d : Nat)
  | closeFile
  | closeChan
  | flush (buffered : List Nat)
deriving DecidableEq, Repr

/-- Outcome of one iteration of the tailFile loop: either the loop
continues in a new state, or the function returns with the given result
(the events of a stop include the deferred fh.Close and close(linesCh)
of main.go:217-221). -/
inductive StepOut
  | next (s : TState) (evs : List Ev)
  | stop (evs : List Ev) (res : Option RErr)
deriving DecidableEq, Repr

/-- One iteration of the tailFile read loop (main.go:227-259).
ReadAt fills at most the free buffer space a[start:], so the bytes taken
are clamped to bufSize minus the carried length; n = 0 enters the backoff
branch (jitter added to dur, then a select of timer against ctx.Done)
regardless of the reported error; otherwise the combined buffer is
scanned, and after a completed scan a non-EOF error returns from the
function, running the deferred closes. -/
def stepIter (s : TState) (i : IterIn) : StepOut :=
  let bs := i.bytes.take (bufSize - s.buf.length)
  if bs.length = 0 then
    if i.cancelWait then
      .stop [.closeFile, .closeChan] none
    else
      .next ⟨s.off, s.buf, s.dur + i.jitter⟩ [.waitBackoff (s.dur + i.jitter)]
  else
    let r := scanEmit i.cancelEmit (s.buf ++ bs)
    if r.cancelled then
      .stop (r.lines.map Ev.emit ++ [.closeFile, .closeChan]) none
    else
      match i.rerr with
      | some RErr.other =>
        .stop (r.lines.map Ev.emit ++ [.closeFile, .closeChan]) (some RErr.other)
      | _ => .next ⟨s.off + bs.length, r.carry, second⟩ (r.lines.map Ev.emit)

/-- Initial state of tailFile: offset 0, no carried bytes, backoff
duration time.Second (main.go:222-225). -/
def initT : TState := ⟨0, [], second⟩

/-- Run of the tailFile loop over a finite schedule of oracle inputs.
Returns the last state, the accumulated events, and some res when the
function returned within the schedule (res is its return value); none
means the loop is still running when the schedule ends. -/
def runTail : TState → List IterIn → TState × List Ev × Option (Option RErr)
  | s, [] => (s, [], none)
  | s, i :: is =>
    match stepIter s i with
    | .stop evs res => (s, evs, some res)
    | .next s2 evs =>
      let r := runTail s2 is
      (r.1, evs ++ r.2.1, r.2.2)

/-- Lines carried by the emit events of a trace, in order. -/
def emittedOf : List Ev → List (List Nat)
  | [] => []
  | e :: t =>
    match e with
    | Ev.emit l => l :: emittedOf t
    | _ => emittedOf t

/-- Number of fh.Close invocations recorded in a trace. -/
def countCloseFile : List Ev → Nat
  | [] => 0
  | e :: t =>
    match e with
    | Ev.closeFile => countCloseFile t + 1
    | _ => countCloseFile t

/-- Number of close(linesCh) invocations recorded in a trace. -/
def countCloseChan : List Ev → Nat
  | [] => 0
  | e :: t =>
    match e with
    | Ev.closeChan => countCloseChan t + 1
    | _ => countCloseChan t

/-- Number of flushes to the network sink recorded in a trace. -/
def flushCount : List Ev → Nat
  | [] => 0
  | e :: t =>
    match e with
    | Ev.flush _ => flushCount t + 1
    | _ => flushCount t

/-- True when an iteration outcome is a return from tailFile. -/
def isStopOut : StepOut → Bool
  | .stop _ _ => true
  | .next _ _ => false

/-- An iteration input free of cancellation and of fatal read errors. -/
def calm (i : IterIn) : Prop :=
  i.cancelWait = false ∧ i.cancelEmit = none ∧ i.rerr ≠ some RErr.other

/-- Every read of the schedule fits into the free buffer space available
at that point, so ReadAt consumes everything the file offers. -/
def fitsFrom : TState → List IterIn → Bool
  | _, [] => true
  | s, i :: is =>
    decide (i.bytes.length ≤ bufSize - s.buf.length) &&
      (match stepIter s i with
       | .next s2 _ => fitsFrom s2 is
       | .stop _ _ => true)

/-- Bytes of the SSE frame lead-in "data: " written for every line
(main.go:193). -/
def dataColon : List Nat := [100, 97, 116, 97, 58, 32]

/-- HTML escaping of one byte, as performed by html.EscapeString
(golang.org/x/...: the five markup-significant characters amp, apostrophe,
less-than, greater-than and double quote are replaced by their entities,
every other character is kept). -/
def escChar (c : Nat) : List Nat :=
  if c = 38 then [38, 97, 109, 112, 59]
  else if c = 39 then [38, 35, 51, 57, 59]
  else if c = 60 then [38, 108, 116, 59]
  else if c = 62 then [38, 103, 116, 59]
  else if c = 34 then [38, 35, 51, 52, 59]
  else [c]

/-- Embedding of html.EscapeString over byte lists. -/
def escapeHtml (l : List Nat) : List Nat := (l.map escChar).flatten

/-- The SSE frame written into the buffered writer for one line
(main.go:193-201): "data: ", then the line verbatim when both wrap
strings are empty and left ++ html.EscapeString(line) ++ right otherwise,
then two newlines. -/
def frame (left right l : List Nat) : List Nat :=
  dataColon ++ (if left = [] ∧ right = [] then l else left ++ escapeHtml l ++ right) ++ [nl, nl]

/-- State of the /tail delivery loop: the content of the bufio.Writer not
yet flushed to the network sink (main.go:180). -/
structure DState where
  pending : List Nat
deriving DecidableEq, Repr

/-- Oracle input of one iteration of the /tail select loop
(main.go:182-209): which select case fires - ctx.Done, the lines channel
reporting closure, the lines channel delivering a line, or the 2-second
ticker. -/
inductive DIn
  | cancelled
  | chanClosed
  | line (l : List Nat)
  | tick
deriving DecidableEq, Repr

/-- Outcome of one iteration of the /tail select loop: continue with a
new buffer state, or return from the handler (whose deferred fh.Close of
main.go:162 is the trailing closeFile event). -/
inductive DOut
  | next (s : DState) (evs : List Ev)
  | stop (evs : List Ev)
deriving DecidableEq, Repr

/-- One iteration of the /tail select loop (main.go:182-209): ctx.Done
returns immediately (no flush); a closed lines channel flushes the
buffered writer and the http.Flusher once and returns; a received line is
formatted and appended to the buffer; a ticker tick flushes exactly when
the buffer is non-empty. -/
def stepDeliver (left right : List Nat) (s : DState) : DIn → DOut
  | .cancelled => .stop [.closeFile]
  | .chanClosed => .stop [.flush s.pending, .closeFile]
  | .line l => .next ⟨s.pending ++ frame left right l⟩ []
  | .tick =>
    if s.pending = [] then .next s [] else .next ⟨[]⟩ [.flush s.pending]

/-- Run of the /tail select loop over a finite schedule.  Returns the
buffer state at the end (at the moment of return, for a terminated run),
the events, and whether the handler returned within the schedule. -/
def runDeliver (left right : List Nat) : DState → List DIn → DState × List Ev × Bool
  | s, [] => (s, [], false)
  | s, d :: ds =>
    match stepDeliver left right s d with
    | .stop evs => (s, evs, true)
    | .next s2 evs =>
      let r := runDeliver left right s2 ds
      (r.1, evs ++ r.2.1, r.2.2)

/-- Byte value of the path separator. -/
def slash : Nat := 47

/-- Byte value of the dot character. -/
def dot : Nat := 46

/-- Bytes of the path element "..". -/
def dotdot : List Nat := [dot, dot]

/-- Split a byte string into its slash-separated elements (n slashes give
n+1 elements, empty elements included), the element walk performed by
path.Clean and fs.ValidPath. -/
def splitSegs : List Nat → List (List Nat)
  | [] => [[]]
  | c :: cs =>
    if c = slash then [] :: splitSegs cs
    else
      match splitSegs cs with
      | [] => [[c]]
      | s :: ss => (c :: s) :: ss

/-- Join path elements with slashes (strings.Join with separator "/"). -/
def joinSegs : List (List Nat) → List Nat
  | [] => []
  | [s] => s
  | s :: ss => s ++ slash :: joinSegs ss

/-- A path element that survives path.Clean unchanged: non-empty and
neither "." nor "..". -/
def goodSeg (s : List Nat) : Bool :=
  !(s == [] || s == [dot] || s == dotdot)

/-- Element processing of path.Clean: empty and "." elements are dropped;
".." pops the previously kept element when there is one that is not
itself "..", is dropped at the root of a rooted path, and is kept in an
unrooted path otherwise; every other element is kept.  The accumulator
holds the kept elements in reverse. -/
def cleanAux (rooted : Bool) : List (List Nat) → List (List Nat) → List (List Nat)
  | acc, [] => acc.reverse
  | acc, s :: ss =>
    if s = [] ∨ s = [dot] then cleanAux rooted acc ss
    else if s = dotdot then
      match acc with
      | [] => if rooted then cleanAux rooted [] ss else cleanAux rooted [dotdot] ss
      | t :: acc2 =>
        if t = dotdot then cleanAux rooted (dotdot :: t :: acc2) ss
        else cleanAux rooted acc2 ss
    else cleanAux rooted (s :: acc) ss

/-- Embedding of path.Clean (equally of filepath.Clean on a slash
separated system): the shortest lexically equivalent path, "." for an
empty result, with a leading slash kept for rooted paths. -/
def pathClean (p : List Nat) : List Nat :=
  match p with
  | [] => [dot]
  | c :: cs =>
    let rooted := c = slash
    let segs := cleanAux rooted [] (splitSegs (c :: cs))
    if segs = [] then (if rooted then [slash] else [dot])
    else (if rooted then slash :: joinSegs segs else joinSegs segs)

/-- Embedding of fs.ValidPath: "." is valid, otherwise the path must be a
non-empty sequence of slash-separated elements none of which is empty,
"." or ".." (so no leading or trailing slash and no parent traversal). -/
def validPath (p : List Nat) : Bool :=
  p == [dot] || (!(p == []) && (splitSegs p).all goodSeg)

/-- File mode classes distinguished by the /tail handler. -/
inductive FMode
  | dir
  | regular
  | other
deriving DecidableEq, Repr

/-- Stat through os.DirFS: names failing fs.ValidPath are rejected (the
handler sees a stat error), otherwise the abstract file system oracle
answers for the name relative to the root. -/
def dirFSStat (fsys : List Nat → Option FMode) (name : List Nat) : Option FMode :=
  if validPath name then fsys name else none

/-- Embedding of filepath.Join(root, fn) for non-empty arguments on a
slash separated system: Clean of the strings joined with a slash. -/
def filepathJoin (root fn : List Nat) : List Nat :=
  pathClean (root ++ slash :: fn)

/-- Embedding of filepath.Abs on a slash separated system: a rooted path
is Cleaned, an unrooted path is joined to the working directory first. -/
def filepathAbs (cwd p : List Nat) : List Nat :=
  if p.head? = some slash then pathClean p else pathClean (cwd ++ slash :: p)

/-- Embedding of strings.HasPrefix. -/
def hasPrefixB (pre s : List Nat) : Bool := List.isPrefixOf pre s

/-- Outcome of the /tail handler validation (main.go:136-161): reject with
an HTTP status before any tail starts, or open the file at the resolved
absolute path and start the tail. -/
inductive TailDecision
  | reject (status : Nat)
  | openTail (afn : List Nat)
deriving DecidableEq, Repr

/-- The path validation of the /tail handler (main.go:136-156): Clean the
file query parameter, Stat it through os.DirFS(root) (404 on error),
require a regular file (400 otherwise), resolve the absolute path with
filepath.Join and filepath.Abs, and require the configured root as a
string prefix of the result (400 otherwise); only then is the file opened
and the tail started. -/
def tailValidate (root cwd : List Nat) (fsys : List Nat → Option FMode)
    (fileQ : List Nat) : TailDecision :=
  let fn := pathClean fileQ
  match dirFSStat fsys fn with
  | none => .reject 404
  | some m =>
    if m ≠ FMode.regular then .reject 400
    else
      let afn := filepathAbs cwd (filepathJoin root fn)
      if hasPrefixB root afn then .openTail afn else .reject 400

/-- The absolute, cleaned root path assembled from its path elements, the
shape filepath.Abs gives the root directory argument at startup
(main.go:42). -/
def rootOf (rsegs : List (List Nat)) : List Nat := slash :: joinSegs rsegs

/-- Budget left for the next send after one send happened. -/
def budgetDec : Option Nat → Option Nat
  | none => none
  | some k => some (k - 1)

theorem idxOfNL_eq_none (p : List Nat) : idxOfNL p = none ↔ ∀ c ∈ p, c ≠ nl := by
  induction p with
  | nil => simp [idxOfNL]
  | cons c cs ih =>
    by_cases hc : c = nl
    · simp [idxOfNL, hc]
    · simp [idxOfNL, hc, Option.map_eq_none', ih]

theorem scanEmit_all_no_nl (b : Option Nat) (p : List Nat) (h : ∀ c ∈ p, c ≠ nl) :
    scanEmit b p = ⟨[], p, false⟩ := by
  induction p with
  | nil => cases b <;> simp [scanEmit]
  | cons c cs ih =>
    have hc : ¬ c = nl := h c (by simp)
    have ih2 := ih (fun x hx => h x (by simp [hx]))
    simp [scanEmit, hc, ih2]

/-- Certificate that scanEmit matches the source loop when
bytes.IndexByte finds no newline (main.go:244-246): nothing is sent and
the whole buffer becomes the carried partial line. -/
theorem scanEmit_no_newline (b : Option Nat) (p : List Nat) (h : idxOfNL p = none) :
    scanEmit b p = ⟨[], p, false⟩ :=
  scanEmit_all_no_nl b p ((idxOfNL_eq_none p).mp h)

/-- Certificate that scanEmit matches the source loop when ctx.Done wins
the select before the first send (main.go:248-250): the function returns
with nothing sent from this scan. -/
theorem scanEmit_budget_zero (p : List Nat) (i : Nat) (h : idxOfNL p = some i) :
    scanEmit (some 0) p = ⟨[], p, true⟩ := by
  induction p generalizing i with
  | nil => simp [idxOfNL] at h
  | cons c cs ih =>
    by_cases hc : c = nl
    · simp [scanEmit, hc]
    · simp only [idxOfNL, if_neg hc, Option.map_eq_some'] at h
      obtain ⟨j, hj, -⟩ := h
      simp [scanEmit, hc, ih j hj]

/-- Certificate that scanEmit matches the source loop when
bytes.IndexByte finds a newline at position i and the send goes through
(main.go:244-254): the bytes before the newline are sent as one line and
the scan continues after the newline with one less send allowed before
the cancellation point. -/
theorem scanEmit_at_newline (b : Option Nat) (p : List Nat) (i : Nat)
    (h : idxOfNL p = some i) (hb : b ≠ some 0) :
    scanEmit b p =
      ⟨p.take i :: (scanEmit (budgetDec b) (p.drop (i + 1))).lines,
       (scanEmit (budgetDec b) (p.drop (i + 1))).carry,
       (scanEmit (budgetDec b) (p.drop (i + 1))).cancelled⟩ := by
  induction p generalizing i with
  | nil => simp [idxOfNL] at h
  | cons c cs ih =>
    by_cases hc : c = nl
    · have hi : i = 0 := by simp [idxOfNL, hc] at h; omega
      subst hi
      match b, hb with
      | none, _ => simp [scanEmit, hc, budgetDec]
      | some (k + 1), _ => simp [scanEmit, hc, budgetDec]
    · simp only [idxOfNL, if_neg hc, Option.map_eq_some'] at h
      obtain ⟨j, hj, hij⟩ := h
      subst hij
      simp [scanEmit, hc, ih j hj]

theorem scanEmit_none_not_cancelled (p : List Nat) : (scanEmit none p).cancelled = false := by
  induction p with
  | nil => simp [scanEmit]
  | cons c cs ih =>
    by_cases hc : c = nl
    · simp [scanEmit, hc, ih]
    · rcases hl : (scanEmit none cs).lines with _ | ⟨l, ls⟩ <;>
        simp [scanEmit, hc, hl, ih]


/-- Soundness of the scan: the emitted lines, each followed by the
newline that delimited it, followed by the carry, reassemble the scanned
bytes, and no emitted line and no carry contains a newline. -/
theorem scan_sound (p : List Nat) :
    ((scanEmit none p).lines.map (fun l => l ++ [nl])).flatten ++ (scanEmit none p).carry = p
    ∧ (∀ l ∈ (scanEmit none p).lines, ∀ c ∈ l, c ≠ nl)
    ∧ (∀ c ∈ (scanEmit none p).carry, c ≠ nl) := by
  induction p with
  | nil => refine ⟨rfl, ?_, ?_⟩ <;> simp [scanEmit]
  | cons c cs ih =>
    obtain ⟨ih1, ih2, ih3⟩ := ih
    by_cases hc : c = nl
    · subst hc
      have he : scanEmit none (nl :: cs)
          = ⟨[] :: (scanEmit none cs).lines, (scanEmit none cs).carry,
             (scanEmit none cs).cancelled⟩ := by
        simp [scanEmit]
      rw [he]
      refine ⟨by simpa using ih1, ?_, ih3⟩
      intro l hl
      rcases List.mem_cons.mp hl with h | h
      · subst h; intro x hx; simp at hx
      · exact ih2 l h
    · rcases hl : (scanEmit none cs).lines with _ | ⟨l, ls⟩
      · have he : scanEmit none (c :: cs) = ⟨[], c :: cs, (scanEmit none cs).cancelled⟩ := by
          simp [scanEmit, hc, hl]
        have hcarry : (scanEmit none cs).carry = cs := by
          rw [hl] at ih1; simpa using ih1
        rw [he]
        refine ⟨by simp, by simp, ?_⟩
        intro x hx
        rcases List.mem_cons.mp hx with h | h
        · subst h; exact hc
        · exact ih3 x (by rw [hcarry]; exact h)
      · have he : scanEmit none (c :: cs)
            = ⟨(c :: l) :: ls, (scanEmit none cs).carry, (scanEmit none cs).cancelled⟩ := by
          simp [scanEmit, hc, hl]
        rw [hl] at ih1 ih2
        rw [he]
        refine ⟨?_, ?_, ih3⟩
        · simpa using congrArg (List.cons c) ih1
        · intro a ha
          rcases List.mem_cons.mp ha with h | h
          · subst h
            intro x hx
            rcases List.mem_cons.mp hx with h2 | h2
            · subst h2; exact hc
            · exact ih2 l (by simp) x h2
          · exact ih2 a (by simp [h])

/-- Scanning a newline-free line, the newline after it, and a remainder
emits exactly that line and continues on the remainder. -/
theorem scanEmit_none_line (l t : List Nat) (h : ∀ c ∈ l, c ≠ nl) :
    scanEmit none (l ++ nl :: t)
      = ⟨l :: (scanEmit none t).lines, (scanEmit none t).carry,
         (scanEmit none t).cancelled⟩ := by
  induction l with
  | nil => simp [scanEmit]
  | cons c cs ih =>
    have hc : ¬ c = nl := h c (by simp)
    have ih2 := ih (fun x hx => h x (by simp [hx]))
    simp [scanEmit, hc, ih2]

/-- Uniqueness of the scan decomposition: any split of the input into
newline-free lines and a newline-free remainder is what the scan
produces. -/
theorem scan_unique (ls : List (List Nat)) (r : List Nat)
    (hls : ∀ l ∈ ls, ∀ c ∈ l, c ≠ nl) (hr : ∀ c ∈ r, c ≠ nl) :
    scanEmit none ((ls.map (fun l => l ++ [nl])).flatten ++ r) = ⟨ls, r, false⟩ := by
  induction ls with
  | nil => simpa using scanEmit_all_no_nl none r hr
  | cons l ls2 ih =>
    have h1 : ∀ c ∈ l, c ≠ nl := hls l (by simp)
    have h2 : ∀ a ∈ ls2, ∀ c ∈ a, c ≠ nl := fun a ha => hls a (by simp [ha])
    have : (((l :: ls2).map (fun x => x ++ [nl])).flatten ++ r)
        = l ++ nl :: (((ls2.map (fun x => x ++ [nl])).flatten) ++ r) := by
      simp
    rw [this, scanEmit_none_line l _ h1, ih h2]

/-- Composition of scans: scanning a concatenation emits the lines of the
first part followed by the lines of the carry of the first part joined
with the second part, and keeps the carry of that second scan.  This is
the invariant that lets tailFile process a file in arbitrary read chunks. -/
theorem scan_append (x y : List Nat) :
    (scanEmit none (x ++ y)).lines
      = (scanEmit none x).lines ++ (scanEmit none ((scanEmit none x).carry ++ y)).lines
    ∧ (scanEmit none (x ++ y)).carry
      = (scanEmit none ((scanEmit none x).carry ++ y)).carry := by
  obtain ⟨hx1, hx2, hx3⟩ := scan_sound x
  obtain ⟨hy1, hy2, hy3⟩ := scan_sound ((scanEmit none x).carry ++ y)
  have hmem : ∀ l ∈ (scanEmit none x).lines
      ++ (scanEmit none ((scanEmit none x).carry ++ y)).lines, ∀ c ∈ l, c ≠ nl := by
    intro l hl
    rcases List.mem_append.mp hl with h | h
    · exact hx2 l h
    · exact hy2 l h
  have hu := scan_unique _ _ hmem hy3
  have harg : ((((scanEmit none x).lines
        ++ (scanEmit none ((scanEmit none x).carry ++ y)).lines).map
          (fun l => l ++ [nl])).flatten)
      ++ (scanEmit none ((scanEmit none x).carry ++ y)).carry = x ++ y := by
    rw [List.map_append, List.flatten_append, List.append_assoc, hy1, ← List.append_assoc, hx1]
  rw [harg] at hu
  rw [hu]
  exact ⟨rfl, rfl⟩

/-- The lines a cancellation budget of k sends are the first k lines of
the uncancelled scan, and cancellation is reported exactly when the scan
has more than k lines to send. -/
theorem scan_budget (p : List Nat) : ∀ k : Nat,
    (scanEmit (some k) p).lines = (scanEmit none p).lines.take k
    ∧ (scanEmit (some k) p).cancelled = decide (k < (scanEmit none p).lines.length) := by
  induction p with
  | nil => intro k; simp [scanEmit]
  | cons c cs ih =>
    intro k
    by_cases hc : c = nl
    · subst hc
      match k with
      | 0 =>
        constructor <;> simp [scanEmit]
      | k + 1 =>
        have h1 := (ih k).1
        have h2 := (ih k).2
        constructor <;> simp [scanEmit, h1, h2]
    · have h1 := (ih k).1
      have h2 := (ih k).2
      rcases hl : (scanEmit none cs).lines with _ | ⟨l, ls⟩
      · rw [hl] at h1 h2
        simp only [List.take_nil, List.length_nil] at h1 h2
        have hek : scanEmit (some k) (c :: cs) = ⟨[], c :: cs, (scanEmit (some k) cs).cancelled⟩ := by
          simp [scanEmit, hc, h1]
        have hen : scanEmit none (c :: cs) = ⟨[], c :: cs, (scanEmit none cs).cancelled⟩ := by
          simp [scanEmit, hc, hl]
        rw [hek, hen]
        simp [h2]
      · rw [hl] at h1 h2
        have hen : scanEmit none (c :: cs)
            = ⟨(c :: l) :: ls, (scanEmit none cs).carry, (scanEmit none cs).cancelled⟩ := by
          simp [scanEmit, hc, hl]
        match k with
        | 0 =>
          simp only [List.take_zero] at h1
          have hek : scanEmit (some 0) (c :: cs)
              = ⟨[], c :: cs, (scanEmit (some 0) cs).cancelled⟩ := by
            simp [scanEmit, hc, h1]
          rw [hek, hen]
          simp [h2]
        | k + 1 =>
          simp only [List.take_succ_cons] at h1
          have hek : scanEmit (some (k + 1)) (c :: cs)
              = ⟨(c :: l) :: ls.take k, (scanEmit (some (k + 1)) cs).carry,
                 (scanEmit (some (k + 1)) cs).cancelled⟩ := by
            simp [scanEmit, hc, h1]
          rw [hek, hen]
          simp [h2]

/-- A read that returns no bytes enters the backoff branch whatever error
it reported: jitter is added to the wait, the wait completes, and the
loop retries with offset and carry unchanged (main.go:230-238). -/
theorem stepIter_empty (s : TState) (i : IterIn)
    (h : i.bytes.take (bufSize - s.buf.length) = []) (hcw : i.cancelWait = false) :
    stepIter s i = .next ⟨s.off, s.buf, s.dur + i.jitter⟩ [.waitBackoff (s.dur + i.jitter)] := by
  simp [stepIter, h, hcw]

/-- A read that returns no bytes, with cancellation winning the backoff
select: the function returns nil and its deferred cleanup closes the file
and the channel (main.go:233-237, 217-221). -/
theorem stepIter_empty_cancel (s : TState) (i : IterIn)
    (h : i.bytes.take (bufSize - s.buf.length) = []) (hcw : i.cancelWait = true) :
    stepIter s i = .stop [.closeFile, .closeChan] none := by
  simp [stepIter, h, hcw]

/-- A read that returns bytes, under a live context and a non-fatal error
report: the combined buffer is scanned, its complete lines are emitted,
the remainder is carried, the offset advances by the count read and the
backoff resets to one second (main.go:239-255). -/
theorem stepIter_data (s : TState) (i : IterIn)
    (h : i.bytes.take (bufSize - s.buf.length) ≠ []) (hce : i.cancelEmit = none)
    (hre : i.rerr ≠ some RErr.other) :
    stepIter s i =
      .next ⟨s.off + (i.bytes.take (bufSize - s.buf.length)).length,
             (scanEmit none (s.buf ++ i.bytes.take (bufSize - s.buf.length))).carry, second⟩
        ((scanEmit none (s.buf ++ i.bytes.take (bufSize - s.buf.length))).lines.map Ev.emit) := by
  have hlen : ¬ ((i.bytes.take (bufSize - s.buf.length)).length = 0) := fun hh =>
    h (List.length_eq_zero.mp hh)
  rcases hr : i.rerr with _ | er
  · simp only [stepIter, hce, hr]
    rw [if_neg hlen, if_neg (by simp [scanEmit_none_not_cancelled])]
  · cases er
    · simp only [stepIter, hce, hr]
      rw [if_neg hlen, if_neg (by simp [scanEmit_none_not_cancelled])]
    · exact absurd hr hre

/-- A read that returns bytes together with a non-EOF error, under a live
context: the lines of this read are still emitted, then the function
returns the error and its deferred cleanup closes the file and the
channel (main.go:243-258). -/
theorem stepIter_data_fatal (s : TState) (i : IterIn)
    (h : i.bytes.take (bufSize - s.buf.length) ≠ []) (hce : i.cancelEmit = none)
    (hre : i.rerr = some RErr.other) :
    stepIter s i =
      .stop ((scanEmit none (s.buf ++ i.bytes.take (bufSize - s.buf.length))).lines.map Ev.emit
               ++ [.closeFile, .closeChan]) (some RErr.other) := by
  have hlen : ¬ ((i.bytes.take (bufSize - s.buf.length)).length = 0) := fun hh =>
    h (List.length_eq_zero.mp hh)
  simp only [stepIter, hce, hre]
  rw [if_neg hlen, if_neg (by simp [scanEmit_none_not_cancelled])]

/-- A read that returns bytes, with cancellation firing before send k+1
of the scan (which has more than k lines to send): exactly the first k
complete lines are emitted, then the function returns nil and its
deferred cleanup runs; the carried partial line is not sent
(main.go:248-250). -/
theorem stepIter_data_cancel (s : TState) (i : IterIn) (k : Nat)
    (h : i.bytes.take (bufSize - s.buf.length) ≠ []) (hce : i.cancelEmit = some k)
    (hk : k < (scanEmit none (s.buf ++ i.bytes.take (bufSize - s.buf.length))).lines.length) :
    stepIter s i =
      .stop (((scanEmit none (s.buf ++ i.bytes.take (bufSize - s.buf.length))).lines.take k).map
               Ev.emit ++ [.closeFile, .closeChan]) none := by
  have hb := scan_budget (s.buf ++ i.bytes.take (bufSize - s.buf.length)) k
  have hcanc : (scanEmit (some k) (s.buf ++ i.bytes.take (bufSize - s.buf.length))).cancelled
      = true := by
    rw [hb.2]
    simpa using hk
  have hlen : ¬ ((i.bytes.take (bufSize - s.buf.length)).length = 0) := fun hh =>
    h (List.length_eq_zero.mp hh)
  simp only [stepIter, hce]
  rw [if_neg hlen, if_pos hcanc, hb.1]

theorem emittedOf_append (a b : List Ev) : emittedOf (a ++ b) = emittedOf a ++ emittedOf b := by
  induction a with
  | nil => simp [emittedOf]
  | cons e t ih => cases e <;> simp [emittedOf, ih]

theorem countCloseFile_append (a b : List Ev) :
    countCloseFile (a ++ b) = countCloseFile a + countCloseFile b := by
  induction a with
  | nil => simp [countCloseFile]
  | cons e t ih => cases e <;> simp [countCloseFile, ih] <;> omega

theorem countCloseChan_append (a b : List Ev) :
    countCloseChan (a ++ b) = countCloseChan a + countCloseChan b := by
  induction a with
  | nil => simp [countCloseChan]
  | cons e t ih => cases e <;> simp [countCloseChan, ih] <;> omega

theorem flushCount_append (a b : List Ev) :
    flushCount (a ++ b) = flushCount a + flushCount b := by
  induction a with
  | nil => simp [flushCount]
  | cons e t ih => cases e <;> simp [flushCount, ih] <;> omega

theorem emittedOf_map_emit (ls : List (List Nat)) : emittedOf (ls.map Ev.emit) = ls := by
  induction ls with
  | nil => rfl
  | cons l t ih => simp [emittedOf, ih]

theorem countCloseFile_map_emit (ls : List (List Nat)) : countCloseFile (ls.map Ev.emit) = 0 := by
  induction ls with
  | nil => rfl
  | cons l t ih => simp [countCloseFile, ih]

theorem countCloseChan_map_emit (ls : List (List Nat)) : countCloseChan (ls.map Ev.emit) = 0 := by
  induction ls with
  | nil => rfl
  | cons l t ih => simp [countCloseChan, ih]


/-- Every outcome of a tailFile iteration has one of three event shapes:
a continuation whose events are only line emissions, a continuation whose
only event is a completed backoff wait, or a return whose events are line
emissions followed by exactly the deferred fh.Close and close(linesCh). -/
theorem stepIter_shape (s : TState) (i : IterIn) :
    (∃ (s2 : TState) (ls : List (List Nat)), stepIter s i = .next s2 (ls.map Ev.emit))
    ∨ (∃ (s2 : TState) (d : Nat), stepIter s i = .next s2 [.waitBackoff d])
    ∨ (∃ (ls : List (List Nat)) (res : Option RErr),
        stepIter s i = .stop (ls.map Ev.emit ++ [.closeFile, .closeChan]) res) := by
  by_cases h0 : (i.bytes.take (bufSize - s.buf.length)).length = 0
  · by_cases hcw : i.cancelWait = true
    · right; right
      refine ⟨[], none, ?_⟩
      simp only [stepIter]
      rw [if_pos h0, if_pos hcw]
      rfl
    · right; left
      refine ⟨⟨s.off, s.buf, s.dur + i.jitter⟩, s.dur + i.jitter, ?_⟩
      simp only [stepIter]
      rw [if_pos h0, if_neg hcw]
  · by_cases hcc : (scanEmit i.cancelEmit (s.buf ++ i.bytes.take (bufSize - s.buf.length))).cancelled
        = true
    · right; right
      refine ⟨(scanEmit i.cancelEmit (s.buf ++ i.bytes.take (bufSize - s.buf.length))).lines,
              none, ?_⟩
      simp only [stepIter]
      rw [if_neg h0, if_pos hcc]
    · rcases hr : i.rerr with _ | er
      · left
        refine ⟨⟨s.off + (i.bytes.take (bufSize - s.buf.length)).length,
                 (scanEmit i.cancelEmit (s.buf ++ i.bytes.take (bufSize - s.buf.length))).carry,
                 second⟩,
                (scanEmit i.cancelEmit (s.buf ++ i.bytes.take (bufSize - s.buf.length))).lines, ?_⟩
        simp only [stepIter, hr]
        rw [if_neg h0, if_neg hcc]
      · cases er
        · left
          refine ⟨⟨s.off + (i.bytes.take (bufSize - s.buf.length)).length,
                   (scanEmit i.cancelEmit (s.buf ++ i.bytes.take (bufSize - s.buf.length))).carry,
                   second⟩,
                  (scanEmit i.cancelEmit (s.buf ++ i.bytes.take (bufSize - s.buf.length))).lines, ?_⟩
          simp only [stepIter, hr]
          rw [if_neg h0, if_neg hcc]
        · right; right
          refine ⟨(scanEmit i.cancelEmit (s.buf ++ i.bytes.take (bufSize - s.buf.length))).lines,
                  some RErr.other, ?_⟩
          simp only [stepIter, hr]
          rw [if_neg h0, if_neg hcc]

/-- A terminated run of tailFile records exactly one fh.Close and exactly
one close of the lines channel, whichever branch returned. -/
theorem runTail_closes (sched : List IterIn) : ∀ (s : TState) (res : Option RErr),
    (runTail s sched).2.2 = some res →
    countCloseFile (runTail s sched).2.1 = 1 ∧ countCloseChan (runTail s sched).2.1 = 1 := by
  induction sched with
  | nil => intro s res h; simp [runTail] at h
  | cons i is ih =>
    intro s res h
    rcases stepIter_shape s i with ⟨s2, ls, he⟩ | ⟨s2, d, he⟩ | ⟨ls, r0, he⟩
    · have hr : runTail s (i :: is)
          = ((runTail s2 is).1, ls.map Ev.emit ++ (runTail s2 is).2.1, (runTail s2 is).2.2) := by
        simp [runTail, he]
      rw [hr] at h ⊢
      obtain ⟨h1, h2⟩ := ih s2 res h
      exact ⟨by rw [countCloseFile_append, countCloseFile_map_emit, h1],
             by rw [countCloseChan_append, countCloseChan_map_emit, h2]⟩
    · have hr : runTail s (i :: is)
          = ((runTail s2 is).1, Ev.waitBackoff d :: (runTail s2 is).2.1, (runTail s2 is).2.2) := by
        simp [runTail, he]
      rw [hr] at h ⊢
      obtain ⟨h1, h2⟩ := ih s2 res h
      exact ⟨by simp [countCloseFile, h1], by simp [countCloseChan, h2]⟩
    · have hr : runTail s (i :: is)
          = (s, ls.map Ev.emit ++ [.closeFile, .closeChan], some r0) := by
        simp [runTail, he]
      rw [hr]
      constructor
      · rw [countCloseFile_append, countCloseFile_map_emit]
        simp [countCloseFile]
      · rw [countCloseChan_append, countCloseChan_map_emit]
        simp [countCloseChan]

/-- Every outcome of a /tail select loop iteration has one of four event
shapes: a continuation with no events (line buffered, or tick with an
empty buffer), a continuation with one flush (tick with a non-empty
buffer), a return with only the deferred fh.Close (cancellation), or a
return with one flush followed by the deferred fh.Close (channel
closed). -/
theorem stepDeliver_shape (left right : List Nat) (s : DState) (d : DIn) :
    (∃ s2 : DState, stepDeliver left right s d = .next s2 [])
    ∨ (∃ (s2 : DState) (b : List Nat), stepDeliver left right s d = .next s2 [.flush b])
    ∨ stepDeliver left right s d = .stop [.closeFile]
    ∨ (∃ b : List Nat, stepDeliver left right s d = .stop [.flush b, .closeFile]) := by
  cases d with
  | cancelled => right; right; left; rfl
  | chanClosed => right; right; right; exact ⟨s.pending, rfl⟩
  | line l => left; exact ⟨⟨s.pending ++ frame left right l⟩, rfl⟩
  | tick =>
    by_cases hp : s.pending = []
    · left
      refine ⟨s, ?_⟩
      simp [stepDeliver, hp]
    · right; left
      refine ⟨⟨[]⟩, s.pending, ?_⟩
      simp [stepDeliver, hp]

/-- A terminated run of the /tail select loop records exactly one
fh.Close (the deferred close of the handler, main.go:162) and never
closes the lines channel. -/
theorem runDeliver_closes (left right : List Nat) (dsched : List DIn) : ∀ s : DState,
    (runDeliver left right s dsched).2.2 = true →
    countCloseFile (runDeliver left right s dsched).2.1 = 1
    ∧ countCloseChan (runDeliver left right s dsched).2.1 = 0 := by
  induction dsched with
  | nil => intro s h; simp [runDeliver] at h
  | cons d ds ih =>
    intro s h
    rcases stepDeliver_shape left right s d with ⟨s2, he⟩ | ⟨s2, b, he⟩ | he | ⟨b, he⟩
    · have hr : runDeliver left right s (d :: ds)
          = ((runDeliver left right s2 ds).1, [] ++ (runDeliver left right s2 ds).2.1,
             (runDeliver left right s2 ds).2.2) := by
        simp [runDeliver, he]
      rw [hr] at h ⊢
      simpa using ih s2 h
    · have hr : runDeliver left right s (d :: ds)
          = ((runDeliver left right s2 ds).1, Ev.flush b :: (runDeliver left right s2 ds).2.1,
             (runDeliver left right s2 ds).2.2) := by
        simp [runDeliver, he]
      rw [hr] at h ⊢
      obtain ⟨h1, h2⟩ := ih s2 h
      exact ⟨by simp [countCloseFile, h1], by simp [countCloseChan, h2]⟩
    · have hr : runDeliver left right s (d :: ds) = (s, [Ev.closeFile], true) := by
        simp [runDeliver, he]
      rw [hr]
      exact ⟨by simp [countCloseFile], by simp [countCloseChan]⟩
    · have hr : runDeliver left right s (d :: ds)
          = (s, [Ev.flush b, Ev.closeFile], true) := by
        simp [runDeliver, he]
      rw [hr]
      exact ⟨by simp [countCloseFile], by simp [countCloseChan]⟩

/-- Integrity invariant of the tailFile loop: over any cancellation-free,
fatal-error-free schedule whose reads all fit the free buffer space, the
lines emitted from a state are exactly the newline-delimited records of
the carried bytes followed by all offered bytes, the final carry is the
remainder of that scan, and the loop has not returned. -/
theorem runTail_lines (sched : List IterIn) : ∀ s : TState,
    (∀ i ∈ sched, calm i) → fitsFrom s sched = true → (∀ c ∈ s.buf, c ≠ nl) →
    emittedOf (runTail s sched).2.1
      = (scanEmit none (s.buf ++ (sched.map IterIn.bytes).flatten)).lines
    ∧ (runTail s sched).1.buf
      = (scanEmit none (s.buf ++ (sched.map IterIn.bytes).flatten)).carry
    ∧ (runTail s sched).2.2 = none := by
  induction sched with
  | nil =>
    intro s hcalm hfits hbuf
    have hs := scanEmit_all_no_nl none s.buf hbuf
    simp [runTail, emittedOf, hs]
  | cons i is ih =>
    intro s hcalm hfits hbuf
    have hci : calm i := hcalm i (by simp)
    have hcalm2 : ∀ j ∈ is, calm j := fun j hj => hcalm j (by simp [hj])
    simp only [fitsFrom, Bool.and_eq_true, decide_eq_true_eq] at hfits
    obtain ⟨hle, hf2⟩ := hfits
    have htake : i.bytes.take (bufSize - s.buf.length) = i.bytes :=
      List.take_of_length_le hle
    by_cases hb : i.bytes = []
    · have he := stepIter_empty s i (by rw [htake, hb]) hci.1
      have hrun : runTail s (i :: is)
          = ((runTail ⟨s.off, s.buf, s.dur + i.jitter⟩ is).1,
             Ev.waitBackoff (s.dur + i.jitter)
               :: (runTail ⟨s.off, s.buf, s.dur + i.jitter⟩ is).2.1,
             (runTail ⟨s.off, s.buf, s.dur + i.jitter⟩ is).2.2) := by
        simp [runTail, he]
      rw [he] at hf2
      have ihh := ih ⟨s.off, s.buf, s.dur + i.jitter⟩ hcalm2 hf2 hbuf
      rw [hrun]
      simp only [emittedOf, List.map_cons, List.flatten_cons, hb, List.nil_append]
      exact ihh
    · have htk : i.bytes.take (bufSize - s.buf.length) ≠ [] := by rw [htake]; exact hb
      have he := stepIter_data s i htk hci.2.1 hci.2.2
      rw [htake] at he
      have hrun : runTail s (i :: is)
          = ((runTail ⟨s.off + i.bytes.length, (scanEmit none (s.buf ++ i.bytes)).carry, second⟩
                is).1,
             (scanEmit none (s.buf ++ i.bytes)).lines.map Ev.emit
               ++ (runTail ⟨s.off + i.bytes.length,
                     (scanEmit none (s.buf ++ i.bytes)).carry, second⟩ is).2.1,
             (runTail ⟨s.off + i.bytes.length,
                (scanEmit none (s.buf ++ i.bytes)).carry, second⟩ is).2.2) := by
        simp [runTail, he]
      rw [he] at hf2
      have hbuf2 : ∀ c ∈ (scanEmit none (s.buf ++ i.bytes)).carry, c ≠ nl :=
        (scan_sound (s.buf ++ i.bytes)).2.2
      have ihh := ih ⟨s.off + i.bytes.length, (scanEmit none (s.buf ++ i.bytes)).carry, second⟩
        hcalm2 hf2 hbuf2
      obtain ⟨ha1, ha2⟩ := scan_append (s.buf ++ i.bytes) ((is.map IterIn.bytes).flatten)
      rw [hrun]
      simp only [List.map_cons, List.flatten_cons, ← List.append_assoc]
      refine ⟨?_, ?_, ihh.2.2⟩
      · rw [emittedOf_append, emittedOf_map_emit, ha1]
        exact congrArg _ ihh.1
      · rw [ha2]
        exact ihh.2.1

theorem goodSeg_iff (s : List Nat) : goodSeg s = true ↔ s ≠ [] ∧ s ≠ [dot] ∧ s ≠ dotdot := by
  simp [goodSeg, not_or, and_assoc]

theorem splitSegs_ne_nil (p : List Nat) : splitSegs p ≠ [] := by
  cases p with
  | nil => simp [splitSegs]
  | cons c cs =>
    by_cases hc : c = slash
    · simp [splitSegs, hc]
    · rcases h : splitSegs cs with _ | ⟨s, ss⟩ <;> simp [splitSegs, hc, h]

theorem splitSegs_append (a b : List Nat) :
    splitSegs (a ++ slash :: b) = splitSegs a ++ splitSegs b := by
  induction a with
  | nil => simp [splitSegs]
  | cons c a2 ih =>
    by_cases hc : c = slash
    · simp [splitSegs, hc, ih]
    · rcases h : splitSegs a2 with _ | ⟨s, ss⟩
      · exact absurd h (splitSegs_ne_nil a2)
      · rw [h] at ih
        simp only [List.cons_append]
        simp [splitSegs, hc, ih, h]

theorem splitSegs_no_slash (p : List Nat) : ∀ s ∈ splitSegs p, slash ∉ s := by
  induction p with
  | nil => simp [splitSegs]
  | cons c cs ih =>
    by_cases hc : c = slash
    · simp only [splitSegs, if_pos hc]
      intro s hs
      rcases List.mem_cons.mp hs with h | h
      · subst h; simp
      · exact ih s h
    · rcases h : splitSegs cs with _ | ⟨s0, ss⟩
      · exact absurd h (splitSegs_ne_nil cs)
      · simp only [splitSegs, if_neg hc, h]
        intro s hs
        rcases List.mem_cons.mp hs with h2 | h2
        · subst h2
          intro hmem
          rcases List.mem_cons.mp hmem with h3 | h3
          · exact hc h3.symm
          · exact ih s0 (by simp [h]) h3
        · exact ih s (by simp [h, h2])

theorem splitSegs_single (s : List Nat) (h : slash ∉ s) : splitSegs s = [s] := by
  induction s with
  | nil => simp [splitSegs]
  | cons c cs ih =>
    have hc : ¬ c = slash := fun hh => h (by simp [hh])
    have ih2 := ih (fun hh => h (by simp [hh]))
    simp [splitSegs, hc, ih2]

theorem joinSegs_cons_cons (s s2 : List Nat) (t : List (List Nat)) :
    joinSegs (s :: s2 :: t) = s ++ slash :: joinSegs (s2 :: t) := rfl

theorem joinSegs_append (g f : List (List Nat)) (hg : g ≠ []) (hf : f ≠ []) :
    joinSegs (g ++ f) = joinSegs g ++ slash :: joinSegs f := by
  induction g with
  | nil => exact absurd rfl hg
  | cons s g2 ih =>
    rcases g2 with _ | ⟨s2, g3⟩
    · rcases f with _ | ⟨t, f2⟩
      · exact absurd rfl hf
      · simp [joinSegs]
    · have ih2 := ih (by simp)
      simp only [List.cons_append] at ih2 ⊢
      calc joinSegs (s :: s2 :: (g3 ++ f))
          = s ++ slash :: joinSegs (s2 :: (g3 ++ f)) := joinSegs_cons_cons s s2 (g3 ++ f)
        _ = s ++ slash :: (joinSegs (s2 :: g3) ++ slash :: joinSegs f) := by rw [ih2]
        _ = joinSegs (s :: s2 :: g3) ++ slash :: joinSegs f := by
            rw [joinSegs_cons_cons]; simp

theorem splitSegs_joinSegs (g : List (List Nat)) (hg : g ≠ [])
    (h : ∀ s ∈ g, slash ∉ s) : splitSegs (joinSegs g) = g := by
  induction g with
  | nil => exact absurd rfl hg
  | cons s g2 ih =>
    rcases g2 with _ | ⟨s2, g3⟩
    · exact splitSegs_single s (h s (by simp))
    · have ih2 := ih (by simp) (fun x hx => h x (by simp [hx]))
      rw [joinSegs_cons_cons, splitSegs_append, splitSegs_single s (h s (by simp)), ih2]
      rfl


theorem cleanAux_no_dd (rooted : Bool) (segs : List (List Nat)) : ∀ acc : List (List Nat),
    (∀ s ∈ segs, s ≠ dotdot) →
    cleanAux rooted acc segs = acc.reverse ++ segs.filter goodSeg := by
  induction segs with
  | nil => intro acc h; simp [cleanAux]
  | cons s ss ih =>
    intro acc h
    have hdd : s ≠ dotdot := h s (by simp)
    have h2 : ∀ x ∈ ss, x ≠ dotdot := fun x hx => h x (by simp [hx])
    by_cases he : s = [] ∨ s = [dot]
    · have hgs : goodSeg s = false := by
        rcases he with he | he <;> simp [goodSeg, he]
      simp only [cleanAux, if_pos he]
      rw [ih acc h2, List.filter_cons, hgs]
      simp
    · have hgs : goodSeg s = true :=
        (goodSeg_iff s).mpr ⟨fun hh => he (Or.inl hh), fun hh => he (Or.inr hh), hdd⟩
      simp only [cleanAux, if_neg he, if_neg hdd]
      rw [ih (s :: acc) h2, List.filter_cons, hgs]
      simp

theorem isPrefixOf_app (l t : List Nat) : l.isPrefixOf (l ++ t) = true := by
  induction l with
  | nil => simp [List.isPrefixOf]
  | cons c cs ih => simp [List.isPrefixOf, ih]

theorem pathClean_rootOf (g : List (List Nat)) (hg : g ≠ [])
    (h : ∀ s ∈ g, goodSeg s = true ∧ slash ∉ s) :
    pathClean (rootOf g) = rootOf g := by
  have hjs : splitSegs (joinSegs g) = g := splitSegs_joinSegs g hg (fun s hs => (h s hs).2)
  have hsplit : splitSegs (slash :: joinSegs g) = [] :: g := by
    simp [splitSegs, hjs]
  have hdd : ∀ s ∈ ([] :: g : List (List Nat)), s ≠ dotdot := by
    intro s hs
    rcases List.mem_cons.mp hs with h1 | h1
    · subst h1; simp [dotdot]
    · exact ((goodSeg_iff s).mp (h s h1).1).2.2
  have hclean : cleanAux true [] ([] :: g) = g := by
    rw [cleanAux_no_dd true ([] :: g) [] hdd]
    have : goodSeg ([] : List Nat) = false := by simp [goodSeg]
    rw [List.reverse_nil, List.nil_append, List.filter_cons, this]
    simp only [Bool.false_eq_true, if_false]
    exact List.filter_eq_self.mpr (fun s hs => (h s hs).1)
  show pathClean (slash :: joinSegs g) = slash :: joinSegs g
  simp only [pathClean, hsplit, decide_True, hclean]
  simp [hg]

theorem abs_join_root (rsegs : List (List Nat)) (fn : List Nat) (cwd : List Nat)
    (h1 : rsegs ≠ []) (h2 : ∀ s ∈ rsegs, goodSeg s = true ∧ slash ∉ s)
    (hfn : validPath fn = true) :
    ∃ f : List (List Nat), (∀ s ∈ f, goodSeg s = true ∧ slash ∉ s) ∧
      filepathAbs cwd (filepathJoin (rootOf rsegs) fn) = rootOf (rsegs ++ f) := by
  have hdd : ∀ s ∈ splitSegs fn, s ≠ dotdot := by
    simp only [validPath, Bool.or_eq_true, beq_iff_eq, Bool.and_eq_true, List.all_eq_true] at hfn
    rcases hfn with hfn | ⟨-, hall⟩
    · subst hfn
      intro s hs
      simp [splitSegs, dot, slash] at hs
      subst hs
      simp [dotdot, dot]
    · intro s hs
      exact ((goodSeg_iff s).mp (hall s hs)).2.2
  refine ⟨(splitSegs fn).filter goodSeg, ?_, ?_⟩
  · intro s hs
    rw [List.mem_filter] at hs
    exact ⟨hs.2, splitSegs_no_slash fn s hs.1⟩
  · have hjoin : filepathJoin (rootOf rsegs) fn
        = rootOf (rsegs ++ (splitSegs fn).filter goodSeg) := by
      show pathClean ((slash :: joinSegs rsegs) ++ slash :: fn) = _
      have hsp : splitSegs ((slash :: joinSegs rsegs) ++ slash :: fn)
          = ([] :: rsegs) ++ splitSegs fn := by
        rw [splitSegs_append]
        have hjs : splitSegs (joinSegs rsegs)
            = rsegs := splitSegs_joinSegs rsegs h1 (fun s hs => (h2 s hs).2)
        simp [splitSegs, hjs]
      have hddall : ∀ s ∈ ([] :: rsegs) ++ splitSegs fn, s ≠ dotdot := by
        intro s hs
        rcases List.mem_append.mp hs with hs | hs
        · rcases List.mem_cons.mp hs with hs | hs
          · subst hs; simp [dotdot]
          · exact ((goodSeg_iff s).mp (h2 s hs).1).2.2
        · exact hdd s hs
      have hclean : cleanAux true [] (([] :: rsegs) ++ splitSegs fn)
          = rsegs ++ (splitSegs fn).filter goodSeg := by
        rw [cleanAux_no_dd true _ [] hddall]
        have hgood0 : goodSeg ([] : List Nat) = false := by simp [goodSeg]
        rw [List.reverse_nil, List.nil_append, List.filter_append, List.filter_cons, hgood0]
        simp only [Bool.false_eq_true, if_false]
        rw [List.filter_eq_self.mpr (fun s hs => (h2 s hs).1)]
      have hne : ([] :: rsegs : List (List Nat)) ++ splitSegs fn ≠ [] := by simp
      have hrne : rsegs ++ (splitSegs fn).filter goodSeg ≠ [] := by
        intro hh
        exact h1 (List.append_eq_nil.mp hh).1
      simp only [pathClean, List.cons_append, hsp]
      rw [show splitSegs (slash :: (joinSegs rsegs ++ slash :: fn)) = ([] :: rsegs) ++ splitSegs fn from hsp]
      simp only [decide_True, hclean]
      simp [hrne, rootOf]
    rw [hjoin]
    have hroot2 : ∀ s ∈ rsegs ++ (splitSegs fn).filter goodSeg, goodSeg s = true ∧ slash ∉ s := by
      intro s hs
      rcases List.mem_append.mp hs with hs | hs
      · exact h2 s hs
      · rw [List.mem_filter] at hs
        exact ⟨hs.2, splitSegs_no_slash fn s hs.1⟩
    have hrne : rsegs ++ (splitSegs fn).filter goodSeg ≠ [] := by
      intro hh
      exact h1 (List.append_eq_nil.mp hh).1
    show (if (rootOf (rsegs ++ (splitSegs fn).filter goodSeg)).head? = some slash then _ else _) = _
    rw [if_pos (by simp [rootOf])]
    exact pathClean_rootOf _ hrne hroot2

/-- C8: every /tail request whose requested path does not exist or is not
a regular file is rejected with a client visible HTTP error status (404
or 400) before the file is opened; whenever the handler does reach the
open step, the stat succeeded on a regular file and the resolved absolute
path lies under the configured root (it is the root itself or has the
root followed by a separator as a prefix), so no tail is ever started on
a path escaping the root.  The hypotheses say the configured root is an
absolute cleaned path below the file system root, the shape filepath.Abs
gives it at startup. -/
theorem tail_path_validation (rsegs : List (List Nat)) (cwd : List Nat)
    (fsys : List Nat → Option FMode) (fileQ : List Nat)
    (h1 : rsegs ≠ []) (h2 : ∀ s ∈ rsegs, goodSeg s = true ∧ slash ∉ s) :
    (dirFSStat fsys (pathClean fileQ) = none →
       tailValidate (rootOf rsegs) cwd fsys fileQ = .reject 404)
    ∧ (∀ m, dirFSStat fsys (pathClean fileQ) = some m → m ≠ FMode.regular →
       tailValidate (rootOf rsegs) cwd fsys fileQ = .reject 400)
    ∧ (∀ st, tailValidate (rootOf rsegs) cwd fsys fileQ = .reject st → 400 ≤ st)
    ∧ (∀ afn, tailValidate (rootOf rsegs) cwd fsys fileQ = .openTail afn →
         dirFSStat fsys (pathClean fileQ) = some FMode.regular
         ∧ (afn = rootOf rsegs ∨ (rootOf rsegs ++ [slash]).isPrefixOf afn = true)) := by
  refine ⟨?_, ?_, ?_, ?_⟩
  · intro h
    simp [tailValidate, h]
  · intro m hm hne
    simp only [tailValidate, hm]
    rw [if_pos hne]
  · intro st h
    rcases hst : dirFSStat fsys (pathClean fileQ) with _ | m
    · simp only [tailValidate, hst] at h
      have := TailDecision.reject.inj h
      omega
    · by_cases hm : m = FMode.regular
      · subst hm
        simp only [tailValidate, hst] at h
        rw [if_neg (by simp)] at h
        by_cases hp : hasPrefixB (rootOf rsegs)
            (filepathAbs cwd (filepathJoin (rootOf rsegs) (pathClean fileQ))) = true
        · rw [if_pos hp] at h
          cases h
        · rw [if_neg hp] at h
          have := TailDecision.reject.inj h
          omega
      · simp only [tailValidate, hst] at h
        rw [if_pos hm] at h
        have := TailDecision.reject.inj h
        omega
  · intro afn hopen
    rcases hst : dirFSStat fsys (pathClean fileQ) with _ | m
    · simp [tailValidate, hst] at hopen
    · by_cases hm : m = FMode.regular
      · subst hm
        refine ⟨rfl, ?_⟩
        have hv : validPath (pathClean fileQ) = true := by
          by_cases hv : validPath (pathClean fileQ) = true
          · exact hv
          · simp [dirFSStat, hv] at hst
        simp only [tailValidate, hst] at hopen
        rw [if_neg (by simp)] at hopen
        by_cases hp : hasPrefixB (rootOf rsegs)
            (filepathAbs cwd (filepathJoin (rootOf rsegs) (pathClean fileQ))) = true
        · rw [if_pos hp] at hopen
          have hafn := (TailDecision.openTail.inj hopen).symm
          obtain ⟨f, hf, heq⟩ := abs_join_root rsegs (pathClean fileQ) cwd h1 h2 hv
          rw [heq] at hafn
          rcases f with _ | ⟨t, f2⟩
          · left
            rw [hafn, List.append_nil]
          · right
            rw [hafn]
            have hj : joinSegs (rsegs ++ t :: f2)
                = joinSegs rsegs ++ slash :: joinSegs (t :: f2) :=
              joinSegs_append rsegs (t :: f2) h1 (by simp)
            show ((slash :: joinSegs rsegs) ++ [slash]).isPrefixOf
              (rootOf (rsegs ++ t :: f2)) = true
            have : rootOf (rsegs ++ t :: f2)
                = ((slash :: joinSegs rsegs) ++ [slash]) ++ joinSegs (t :: f2) := by
              rw [rootOf, hj]
              simp
            rw [this]
            exact isPrefixOf_app _ _
        · rw [if_neg hp] at hopen
          cases hopen
      · simp only [tailValidate, hst] at hopen
        rw [if_pos hm] at hopen
        cases hopen

theorem escChar_no_markup (x c : Nat) (hc : c ∈ escChar x) :
    c ≠ 60 ∧ c ≠ 62 ∧ c ≠ 34 ∧ c ≠ 39 := by
  unfold escChar at hc
  by_cases h1 : x = 38
  · simp [h1] at hc
    rcases hc with rfl | rfl | rfl | rfl | rfl <;> decide
  · by_cases h2 : x = 39
    · simp [h1, h2] at hc
      rcases hc with rfl | rfl | rfl | rfl | rfl <;> decide
    · by_cases h3 : x = 60
      · simp [h1, h2, h3] at hc
        rcases hc with rfl | rfl | rfl | rfl <;> decide
      · by_cases h4 : x = 62
        · simp [h1, h2, h3, h4] at hc
          rcases hc with rfl | rfl | rfl | rfl <;> decide
        · by_cases h5 : x = 34
          · simp [h1, h2, h3, h4, h5] at hc
            rcases hc with rfl | rfl | rfl | rfl | rfl <;> decide
          · simp [h1, h2, h3, h4, h5] at hc
            subst hc
            exact ⟨h3, h4, h5, h2⟩

theorem escapeHtml_no_markup (l : List Nat) :
    ∀ c ∈ escapeHtml l, c ≠ 60 ∧ c ≠ 62 ∧ c ≠ 34 ∧ c ≠ 39 := by
  intro c hc
  rw [escapeHtml, List.mem_flatten] at hc
  obtain ⟨seg, hseg, hcl⟩ := hc
  rw [List.mem_map] at hseg
  obtain ⟨x, -, rfl⟩ := hseg
  exact escChar_no_markup x c hcl

/-- C5: every frame appended to the /tail output for a received line has
the shape "data: " ++ wrapped line ++ two newlines, and when a wrap
string is applied (at least one of left and right non-empty) the wrapped
line is the left wrap, the HTML-escaped line content and the right wrap:
the wraps appear intact and unescaped while the escaped content is free
of the raw markup characters less-than, greater-than, double quote and
apostrophe. -/
theorem frame_escaped (left right l : List Nat) (h : ¬ (left = [] ∧ right = [])) :
    frame left right l = dataColon ++ left ++ escapeHtml l ++ right ++ [nl, nl]
    ∧ (∀ s : DState,
        stepDeliver left right s (.line l) = .next ⟨s.pending ++ frame left right l⟩ [])
    ∧ (∀ c ∈ escapeHtml l, c ≠ 60 ∧ c ≠ 62 ∧ c ≠ 34 ∧ c ≠ 39) := by
  refine ⟨by simp [frame, h], fun s => rfl, escapeHtml_no_markup l⟩

/-- C5 witness: wraps <b> and </b> around the line a<b. -/
theorem frame_escaped_witness :
    frame [60, 98, 62] [60, 47, 98, 62] [97, 60, 98]
      = dataColon ++ [60, 98, 62] ++ escapeHtml [97, 60, 98] ++ [60, 47, 98, 62] ++ [nl, nl] :=
  (frame_escaped [60, 98, 62] [60, 47, 98, 62] [97, 60, 98] (by decide)).1

/-- C9: with both wrap query parameters empty the line content is written
into the SSE frame verbatim, with no HTML escaping applied; escaping
happens exactly when at least one wrap string is non-empty. -/
theorem frame_verbatim (l : List Nat) :
    frame [] [] l = dataColon ++ l ++ [nl, nl]
    ∧ (∀ left right : List Nat, ¬ (left = [] ∧ right = []) →
        frame left right l = dataColon ++ left ++ escapeHtml l ++ right ++ [nl, nl]) := by
  constructor
  · simp [frame]
  · intro left right h
    simp [frame, h]

/-- C9 witness: the line containing a raw less-than byte passes through
verbatim when unwrapped and escaped when wrapped. -/
theorem frame_verbatim_witness :
    frame [] [] [60, 98] = dataColon ++ [60, 98] ++ [nl, nl]
    ∧ frame [60] [] [60, 98] = dataColon ++ [60] ++ escapeHtml [60, 98] ++ [] ++ [nl, nl] :=
  ⟨(frame_verbatim [60, 98]).1, (frame_verbatim [60, 98]).2 [60] [] (by decide)⟩

/-- C4 (amended): the /tail delivery buffer is flushed exactly when it is
non-empty at a ticker tick (an empty buffer produces no flush); on
closure of the line channel exactly one final flush of the buffered
frames happens before the handler returns; but on cancellation of the
request context the handler returns immediately with no flush at all,
discarding any buffered frames. -/
theorem deliver_flush_policy (left right : List Nat) (s : DState) :
    (s.pending ≠ [] → stepDeliver left right s .tick = .next ⟨[]⟩ [.flush s.pending])
    ∧ (s.pending = [] → stepDeliver left right s .tick = .next s [])
    ∧ stepDeliver left right s .chanClosed = .stop [.flush s.pending, .closeFile]
    ∧ flushCount [Ev.flush s.pending, Ev.closeFile] = 1
    ∧ stepDeliver left right s .cancelled = .stop [.closeFile]
    ∧ flushCount [Ev.closeFile] = 0 := by
  refine ⟨fun h => by simp [stepDeliver, h], fun h => by simp [stepDeliver, h],
          rfl, rfl, rfl, rfl⟩

/-- C4 counterexample: a delivery run that buffers one line and is then
cancelled reaches a shutdown path with a non-empty buffer yet records no
flush at all, refuting the claim that every shutdown path performs
exactly one final flush of the already-buffered frames. -/
theorem deliver_flush_cx :
    (runDeliver [] [] ⟨[]⟩ [DIn.line [104, 105], DIn.cancelled]).2.2 = true
    ∧ (runDeliver [] [] ⟨[]⟩ [DIn.line [104, 105], DIn.cancelled]).1.pending ≠ []
    ∧ flushCount (runDeliver [] [] ⟨[]⟩ [DIn.line [104, 105], DIn.cancelled]).2.1 = 0 := by
  refine ⟨rfl, by decide, rfl⟩

/-- C4 witness: a tick with one buffered frame flushes it, and
cancellation returns without flushing. -/
theorem deliver_flush_policy_witness :
    stepDeliver [] [] ⟨[100]⟩ DIn.tick = .next ⟨[]⟩ [.flush [100]]
    ∧ stepDeliver [] [] ⟨[100]⟩ DIn.cancelled = .stop [.closeFile] :=
  ⟨(deliver_flush_policy [] [] ⟨[100]⟩).1 (by decide),
   (deliver_flush_policy [] [] ⟨[100]⟩).2.2.2.2.1⟩

/-- C2 (amended): every terminating execution of tailFile closes the
file handle exactly once and the output channel exactly once (its
deferred cleanup), and every terminating /tail delivery run never closes
the channel but invokes Close once more on the same file handle through
the deferred close of the handler, so a complete request execution closes
the channel exactly once while the file handle receives two Close
invocations in total (the second returns an already-closed error under
os.File semantics and releases nothing). -/
theorem close_exactly_once (s : TState) (sched : List IterIn) (res : Option RErr)
    (left right : List Nat) (ds : DState) (dsched : List DIn)
    (ht : (runTail s sched).2.2 = some res)
    (hd : (runDeliver left right ds dsched).2.2 = true) :
    countCloseFile (runTail s sched).2.1 = 1
    ∧ countCloseChan (runTail s sched).2.1 = 1
    ∧ countCloseFile (runDeliver left right ds dsched).2.1 = 1
    ∧ countCloseChan (runDeliver left right ds dsched).2.1 = 0
    ∧ countCloseFile ((runTail s sched).2.1 ++ (runDeliver left right ds dsched).2.1) = 2
    ∧ countCloseChan ((runTail s sched).2.1 ++ (runDeliver left right ds dsched).2.1) = 1 := by
  obtain ⟨t1, t2⟩ := runTail_closes sched s res ht
  obtain ⟨d1, d2⟩ := runDeliver_closes left right dsched ds hd
  refine ⟨t1, t2, d1, d2, ?_, ?_⟩
  · rw [countCloseFile_append, t1, d1]
  · rw [countCloseChan_append, t2, d2]

/-- C2 counterexample: a complete request execution - tailFile reads the
line x together with a fatal error, emits it, returns and runs its
deferred closes; the handler receives the line, sees the channel close,
flushes and returns, running its own deferred fh.Close - contains two
Close invocations on the file handle, not exactly one; the channel is
closed exactly once. -/
theorem close_exactly_once_cx :
    countCloseFile
      ((runTail initT [⟨[120, 10], some RErr.other, 0, false, none⟩]).2.1
        ++ (runDeliver [] [] ⟨[]⟩ [DIn.line [120], DIn.chanClosed]).2.1) = 2
    ∧ ¬ countCloseFile
      ((runTail initT [⟨[120, 10], some RErr.other, 0, false, none⟩]).2.1
        ++ (runDeliver [] [] ⟨[]⟩ [DIn.line [120], DIn.chanClosed]).2.1) = 1
    ∧ countCloseChan
      ((runTail initT [⟨[120, 10], some RErr.other, 0, false, none⟩]).2.1
        ++ (runDeliver [] [] ⟨[]⟩ [DIn.line [120], DIn.chanClosed]).2.1) = 1 := by
  refine ⟨by decide, by decide, by decide⟩

/-- C2 witness: the same concrete terminating executions, with the
termination hypotheses discharged by computation. -/
theorem close_exactly_once_witness :
    countCloseFile (runTail initT [⟨[120, 10], some RErr.other, 0, false, none⟩]).2.1 = 1
    ∧ countCloseChan (runDeliver [] [] ⟨[]⟩ [DIn.line [120], DIn.chanClosed]).2.1 = 0 :=
  ⟨(close_exactly_once initT [⟨[120, 10], some RErr.other, 0, false, none⟩]
      (some RErr.other) [] [] ⟨[]⟩ [DIn.line [120], DIn.chanClosed]
      (by decide) (by decide)).1,
   (close_exactly_once initT [⟨[120, 10], some RErr.other, 0, false, none⟩]
      (some RErr.other) [] [] ⟨[]⟩ [DIn.line [120], DIn.chanClosed]
      (by decide) (by decide)).2.2.2.1⟩

/-- C3 (amended): a read returning zero new bytes triggers backoff and
retry whatever error value it carried, including a non-EOF error; a read
returning bytes with no error or with io.EOF is not a termination
condition - the loop processes the bytes and continues; a read returning
bytes together with a non-EOF error is fatal: after emitting the lines of
those bytes the loop stops and its deferred cleanup closes the file and
the output channel, which is all the consumer observes (end of stream). -/
theorem read_outcome_policy (s : TState) (i : IterIn) :
    (i.bytes.take (bufSize - s.buf.length) = [] → i.cancelWait = false →
      stepIter s i
        = .next ⟨s.off, s.buf, s.dur + i.jitter⟩ [.waitBackoff (s.dur + i.jitter)])
    ∧ (i.bytes.take (bufSize - s.buf.length) ≠ [] → i.cancelEmit = none →
       (i.rerr = none ∨ i.rerr = some RErr.eof) →
      stepIter s i
        = .next ⟨s.off + (i.bytes.take (bufSize - s.buf.length)).length,
                 (scanEmit none (s.buf ++ i.bytes.take (bufSize - s.buf.length))).carry,
                 second⟩
            ((scanEmit none (s.buf ++ i.bytes.take (bufSize - s.buf.length))).lines.map
              Ev.emit))
    ∧ (i.bytes.take (bufSize - s.buf.length) ≠ [] → i.cancelEmit = none →
       i.rerr = some RErr.other →
      stepIter s i
        = .stop ((scanEmit none (s.buf ++ i.bytes.take (bufSize - s.buf.length))).lines.map
              Ev.emit ++ [.closeFile, .closeChan]) (some RErr.other)) := by
  refine ⟨fun h hc => stepIter_empty s i h hc,
          fun h hc hr => stepIter_data s i h hc (by rcases hr with hr | hr <;> simp [hr]),
          fun h hc hr => stepIter_data_fatal s i h hc hr⟩

/-- C3 counterexample: a read returning zero bytes together with a
non-EOF error (as ReadAt reports on a concurrently closed handle) is not
fatal: the iteration continues into the backoff branch instead of
stopping and closing, refuting the claim that any read error other than
end-of-data stops the loop. -/
theorem read_outcome_policy_cx :
    stepIter initT ⟨[], some RErr.other, 0, false, none⟩
      = .next ⟨0, [], second⟩ [.waitBackoff second]
    ∧ isStopOut (stepIter initT ⟨[], some RErr.other, 0, false, none⟩) = false := by
  constructor <;> decide

/-- C3 witness: a non-empty read with io.EOF continues the loop. -/
theorem read_outcome_policy_witness :
    stepIter initT ⟨[120, 10], some RErr.eof, 0, false, none⟩
      = .next ⟨2, [], second⟩ [Ev.emit [120]] := by
  rw [(read_outcome_policy initT ⟨[120, 10], some RErr.eof, 0, false, none⟩).2.1
    (by decide) rfl (Or.inr rfl)]
  decide

/-- C6: the backoff interval starts at the one second baseline; on each
zero-byte read the wait interval becomes the current interval plus the
random jitter (for jitter in [0, one second) this keeps the new wait in
[current, current + one second)); after any non-empty read the interval
is reset to the baseline, so the next wait on an empty read is the
baseline plus a fresh jitter rather than the previously grown interval. -/
theorem backoff_policy :
    initT.dur = second
    ∧ (∀ (s : TState) (i : IterIn),
        i.bytes.take (bufSize - s.buf.length) = [] → i.cancelWait = false →
        stepIter s i
            = .next ⟨s.off, s.buf, s.dur + i.jitter⟩ [.waitBackoff (s.dur + i.jitter)]
          ∧ (i.jitter < second →
              s.dur ≤ s.dur + i.jitter ∧ s.dur + i.jitter < s.dur + second))
    ∧ (∀ (s : TState) (i : IterIn) (s2 : TState) (evs : List Ev),
        i.bytes.take (bufSize - s.buf.length) ≠ [] →
        stepIter s i = .next s2 evs → s2.dur = second)
    ∧ (∀ (s : TState) (i : IterIn) (s2 : TState) (evs : List Ev) (i2 : IterIn),
        i.bytes.take (bufSize - s.buf.length) ≠ [] → stepIter s i = .next s2 evs →
        i2.bytes.take (bufSize - s2.buf.length) = [] → i2.cancelWait = false →
        stepIter s2 i2
          = .next ⟨s2.off, s2.buf, second + i2.jitter⟩ [.waitBackoff (second + i2.jitter)]) := by
  have hreset : ∀ (s : TState) (i : IterIn) (s2 : TState) (evs : List Ev),
      i.bytes.take (bufSize - s.buf.length) ≠ [] →
      stepIter s i = .next s2 evs → s2.dur = second := by
    intro s i s2 evs hne hstep
    have hlen : ¬ ((i.bytes.take (bufSize - s.buf.length)).length = 0) := fun hh =>
      hne (List.length_eq_zero.mp hh)
    simp only [stepIter] at hstep
    rw [if_neg hlen] at hstep
    by_cases hcc : (scanEmit i.cancelEmit
        (s.buf ++ i.bytes.take (bufSize - s.buf.length))).cancelled = true
    · rw [if_pos hcc] at hstep
      cases hstep
    · rw [if_neg hcc] at hstep
      rcases hr : i.rerr with _ | er
      · rw [hr] at hstep
        cases hstep
        rfl
      · cases er
        · rw [hr] at hstep
          cases hstep
          rfl
        · rw [hr] at hstep
          cases hstep
  refine ⟨rfl, ?_, hreset, ?_⟩
  · intro s i h hc
    exact ⟨stepIter_empty s i h hc, fun hj => ⟨Nat.le_add_right _ _, by omega⟩⟩
  · intro s i s2 evs i2 hne hstep h2 hc2
    have hd := hreset s i s2 evs hne hstep
    have := stepIter_empty s2 i2 h2 hc2
    rw [hd] at this
    exact this

/-- C6 witness: a grown interval waits its value plus the jitter on an
empty read, and after a non-empty read the interval is back at the
baseline. -/
theorem backoff_policy_witness :
    stepIter ⟨5, [], 3 * second⟩ ⟨[], some RErr.eof, 7, false, none⟩
      = .next ⟨5, [], 3 * second + 7⟩ [.waitBackoff (3 * second + 7)]
    ∧ (⟨2, [], second⟩ : TState).dur = second := by
  constructor
  · exact (backoff_policy.2.1 ⟨5, [], 3 * second⟩ ⟨[], some RErr.eof, 7, false, none⟩
      (by decide) rfl).1
  · exact backoff_policy.2.2.1 ⟨0, [], 5 * second⟩ ⟨[120, 10], none, 0, false, none⟩
      ⟨2, [], second⟩ [Ev.emit [120]] (by decide) (by decide)

/-- C7: if cancellation fires while tailFile is waiting - in the backoff
select after an empty read, or while blocked sending a line to an unready
consumer - the loop stops at once with only its deferred closes and emits
nothing further whatever the rest of the schedule would have offered; a
cancelled send truncates the emissions of the iteration to the first k
complete lines of the scan, so the carried partial line is never
emitted. -/
theorem cancel_stops (s : TState) (i : IterIn) (rest : List IterIn) :
    (i.bytes.take (bufSize - s.buf.length) = [] → i.cancelWait = true →
      runTail s (i :: rest) = (s, [.closeFile, .closeChan], some none))
    ∧ (∀ k : Nat, i.bytes.take (bufSize - s.buf.length) ≠ [] → i.cancelEmit = some k →
        k < (scanEmit none (s.buf ++ i.bytes.take (bufSize - s.buf.length))).lines.length →
        runTail s (i :: rest)
          = (s, ((scanEmit none (s.buf ++ i.bytes.take (bufSize - s.buf.length))).lines.take
                k).map Ev.emit ++ [.closeFile, .closeChan], some none)) := by
  constructor
  · intro h hc
    have he := stepIter_empty_cancel s i h hc
    simp [runTail, he]
  · intro k h hc hk
    have he := stepIter_data_cancel s i k h hc hk
    simp [runTail, he]

/-- C7 witness: cancellation during the backoff wait stops with nothing
emitted even though more data was scheduled, and cancellation before the
second send of a two-line read emits exactly the first complete line. -/
theorem cancel_stops_witness :
    runTail initT [⟨[], some RErr.eof, 0, true, none⟩, ⟨[120], none, 0, false, none⟩]
      = (initT, [.closeFile, .closeChan], some none)
    ∧ runTail initT [⟨[104, 10, 119, 10], some RErr.eof, 0, false, some 1⟩]
      = (initT, [Ev.emit [104], .closeFile, .closeChan], some none) := by
  constructor
  · exact (cancel_stops initT ⟨[], some RErr.eof, 0, true, none⟩
      [⟨[120], none, 0, false, none⟩]).1 (by decide) rfl
  · have h := (cancel_stops initT ⟨[104, 10, 119, 10], some RErr.eof, 0, false, some 1⟩ []).2
      1 (by decide) rfl (by decide)
    rw [h]
    decide

/-- Stalled runs of tailFile with a full carried buffer: nothing is ever
emitted, offset and carry never change, and the loop never returns over
any cancellation-free schedule. -/
theorem runTail_stall (sched : List IterIn) : ∀ s : TState, s.buf.length = bufSize →
    (∀ i ∈ sched, i.cancelWait = false) →
    (runTail s sched).1.off = s.off ∧ (runTail s sched).1.buf = s.buf
    ∧ (runTail s sched).2.2 = none ∧ emittedOf (runTail s sched).2.1 = [] := by
  induction sched with
  | nil => intro s hf hc; simp [runTail, emittedOf]
  | cons i is ih =>
    intro s hf hc
    have htake : i.bytes.take (bufSize - s.buf.length) = [] := by
      rw [hf]
      simp
    have he := stepIter_empty s i htake (hc i (by simp))
    have hrun : runTail s (i :: is)
        = ((runTail ⟨s.off, s.buf, s.dur + i.jitter⟩ is).1,
           Ev.waitBackoff (s.dur + i.jitter)
             :: (runTail ⟨s.off, s.buf, s.dur + i.jitter⟩ is).2.1,
           (runTail ⟨s.off, s.buf, s.dur + i.jitter⟩ is).2.2) := by
      simp [runTail, he]
    have ihh := ih ⟨s.off, s.buf, s.dur + i.jitter⟩ hf (fun j hj => hc j (by simp [hj]))
    rw [hrun]
    exact ⟨ihh.1, ihh.2.1, ihh.2.2.1, by simp [emittedOf, ihh.2.2.2]⟩

/-- C10: once the carried partial line fills the whole 16384-byte working
buffer, every subsequent positioned read is handed a zero-length
destination slice and returns zero bytes, so the loop takes the backoff
branch forever: each step only grows the interval by its jitter, and over
any cancellation-free schedule the loop emits no line, never advances its
offset or carry and never returns; cancellation during the backoff wait
is the only exit. -/
theorem buffer_full_stall (s : TState) (hfull : s.buf.length = bufSize) :
    (∀ i : IterIn, i.cancelWait = false →
      stepIter s i = .next ⟨s.off, s.buf, s.dur + i.jitter⟩ [.waitBackoff (s.dur + i.jitter)])
    ∧ (∀ i : IterIn, i.cancelWait = true →
      stepIter s i = .stop [.closeFile, .closeChan] none)
    ∧ (∀ sched : List IterIn, (∀ i ∈ sched, i.cancelWait = false) →
        (runTail s sched).1.off = s.off ∧ (runTail s sched).1.buf = s.buf
        ∧ (runTail s sched).2.2 = none ∧ emittedOf (runTail s sched).2.1 = []) := by
  have htake : ∀ i : IterIn, i.bytes.take (bufSize - s.buf.length) = [] := by
    intro i
    rw [hfull]
    simp
  exact ⟨fun i hc => stepIter_empty s i (htake i) hc,
         fun i hc => stepIter_empty_cancel s i (htake i) hc,
         fun sched hcs => runTail_stall sched s hfull hcs⟩

/-- C10 witness: with the carry filling the buffer, a read offering the
pending newline still returns zero bytes, the backoff grows by the
jitter, and the singleton run emits nothing and keeps the state. -/
theorem buffer_full_stall_witness :
    stepIter ⟨100, List.replicate bufSize 97, second⟩ ⟨[10], some RErr.eof, 5, false, none⟩
      = .next ⟨100, List.replicate bufSize 97, second + 5⟩ [.waitBackoff (second + 5)]
    ∧ emittedOf (runTail ⟨100, List.replicate bufSize 97, second⟩
        [⟨[10], some RErr.eof, 5, false, none⟩]).2.1 = [] := by
  have h := buffer_full_stall ⟨100, List.replicate bufSize 97, second⟩ (by simp)
  exact ⟨h.1 ⟨[10], some RErr.eof, 5, false, none⟩ rfl,
         (h.2.2 [⟨[10], some RErr.eof, 5, false, none⟩] (by decide)).2.2.2⟩

theorem replicate97_no_nl : ∀ c ∈ List.replicate bufSize 97, c ≠ nl := by
  intro c hc
  rw [List.eq_of_mem_replicate hc]
  decide


/-- Run of tailFile over one read that fills the whole working buffer
with a newline-free word w and a second read offering the delimiting
newline: nothing is emitted, although the offered content w ++ newline
consists of exactly the one record w. -/
theorem stall_aux (w : List Nat) (hw : ∀ c ∈ w, c ≠ nl) (hlen : w.length = bufSize) :
    emittedOf (runTail initT [⟨w, some RErr.eof, 0, false, none⟩,
      ⟨[10], some RErr.eof, 0, false, none⟩]).2.1 = []
    ∧ (scanLines (w ++ [10])).lines = [w] := by
  have htk1 : w.take (bufSize - ((initT : TState).buf.length)) = w := by
    apply List.take_of_length_le
    rw [hlen]
    simp [initT]
  have hne1 : w.take (bufSize - ((initT : TState).buf.length)) ≠ [] := by
    rw [htk1]
    intro hh
    rw [hh] at hlen
    exact absurd hlen.symm (by decide)
  have hscan : scanEmit none ((initT : TState).buf ++ w.take
      (bufSize - (initT : TState).buf.length)) = ⟨[], w, false⟩ := by
    rw [htk1]
    show scanEmit none ([] ++ w) = _
    rw [List.nil_append]
    exact scanEmit_all_no_nl none w hw
  have h1 := stepIter_data initT ⟨w, some RErr.eof, 0, false, none⟩ hne1 rfl (by simp)
  rw [hscan, htk1] at h1
  have h2 := stepIter_empty ⟨(initT : TState).off + w.length, w, second⟩
    ⟨[10], some RErr.eof, 0, false, none⟩
    (by show ([10] : List Nat).take (bufSize - w.length) = []
        rw [hlen, Nat.sub_self, List.take_zero]) rfl
  constructor
  · simp [runTail, h1, h2, emittedOf]
  · have hc : w ++ [10] = w ++ nl :: [] := rfl
    rw [scanLines, hc, scanEmit_none_line w [] hw]
    simp [scanEmit]

/-- C1 (amended): over any schedule free of cancellation and of fatal
read errors in which every read fits the free space of the 16384-byte
working buffer, the lines tailFile emits are exactly the newline
delimited records of the bytes it consumed (the concatenation of the
reads), in order with no duplication or loss, and the trailing partial
record is carried;  in particular appending hello-newline-world emits
exactly the line hello with world carried pending, and a following
bang-newline emits exactly the further line world-bang.  (Without the
fit condition a record reaching the buffer size stalls consumption and
its bytes are never delivered: see the counterexample and C10.) -/
theorem line_integrity :
    (∀ sched : List IterIn, (∀ i ∈ sched, calm i) → fitsFrom initT sched = true →
      emittedOf (runTail initT sched).2.1
        = (scanLines ((sched.map IterIn.bytes).flatten)).lines
      ∧ (runTail initT sched).1.buf
        = (scanLines ((sched.map IterIn.bytes).flatten)).carry)
    ∧ emittedOf (runTail initT
        [⟨[104, 101, 108, 108, 111, 10, 119, 111, 114, 108, 100], some RErr.eof, 0, false,
          none⟩]).2.1 = [[104, 101, 108, 108, 111]]
    ∧ (runTail initT
        [⟨[104, 101, 108, 108, 111, 10, 119, 111, 114, 108, 100], some RErr.eof, 0, false,
          none⟩]).1.buf = [119, 111, 114, 108, 100]
    ∧ emittedOf (runTail initT
        [⟨[104, 101, 108, 108, 111, 10, 119, 111, 114, 108, 100], some RErr.eof, 0, false,
          none⟩,
         ⟨[33, 10], some RErr.eof, 0, false, none⟩]).2.1
        = [[104, 101, 108, 108, 111], [119, 111, 114, 108, 100, 33]] := by
  refine ⟨?_, by decide, by decide, by decide⟩
  intro sched hcalm hfits
  have h := runTail_lines sched initT hcalm hfits (by simp [initT])
  exact ⟨by simpa [scanLines, initT] using h.1, by simpa [scanLines, initT] using h.2.1⟩

/-- C1 witness: the general part applied to the concrete hello-world
schedule, with the calmness and fit hypotheses discharged by
computation. -/
theorem line_integrity_witness :
    emittedOf (runTail initT [⟨[104, 101, 108, 108, 111, 10, 119, 111, 114, 108, 100],
        some RErr.eof, 0, false, none⟩, ⟨[33, 10], some RErr.eof, 0, false, none⟩]).2.1
      = (scanLines ((([⟨[104, 101, 108, 108, 111, 10, 119, 111, 114, 108, 100], some RErr.eof,
          0, false, none⟩, ⟨[33, 10], some RErr.eof, 0, false, none⟩] : List IterIn).map
            IterIn.bytes).flatten)).lines :=
  (line_integrity.1 _ (by simp [calm]) (by decide)).1

/-- C1 counterexample: the file receives one 16384-byte record followed
by its delimiting newline, offered to the loop in two reads; the first
read fills the working buffer with no newline, after which the free
space is zero and the newline can never be read, so nothing is ever
emitted although the appended bytes consist of exactly one complete
record - the emitted lines do not equal the records of the file, which
refutes the claim as stated for arbitrary byte sequences. -/
theorem line_integrity_cx :
    emittedOf (runTail initT
      [⟨List.replicate bufSize 97, some RErr.eof, 0, false, none⟩,
       ⟨[10], some RErr.eof, 0, false, none⟩]).2.1 = []
    ∧ (scanLines ((([⟨List.replicate bufSize 97, some RErr.eof, 0, false, none⟩,
         ⟨[10], some RErr.eof, 0, false, none⟩] : List IterIn).map IterIn.bytes).flatten)).lines
        = [List.replicate bufSize 97]
    ∧ ([] : List (List Nat)) ≠ [List.replicate bufSize 97] := by
  have h := stall_aux (List.replicate bufSize 97) replicate97_no_nl (List.length_replicate bufSize 97)
  refine ⟨h.1, ?_, by simp⟩
  have hfl : ((([⟨List.replicate bufSize 97, some RErr.eof, 0, false, none⟩,
      ⟨[10], some RErr.eof, 0, false, none⟩] : List IterIn).map IterIn.bytes).flatten)
      = List.replicate bufSize 97 ++ [10] := by
    simp
  rw [hfl]
  exact h.2

/-- C8 witness: with root /logs and a file system with no entries, the
request for ../x is rejected with status 404 before any open; the root
well-formedness hypotheses are discharged by computation. -/
theorem tail_path_validation_witness :
    tailValidate (rootOf [[108, 111, 103, 115]]) [] (fun _ => none) [46, 46, 47, 120]
      = TailDecision.reject 404 :=
  (tail_path_validation [[108, 111, 103, 115]] [] (fun _ => none) [46, 46, 47, 120]
    (by decide) (by decide)).1 (by decide)
